import Mathlib

/-!
Verification of the coordination core of the bruteForceSimulation repository against
its specification. The repository holds four C sources implementing the same
brute-force keyspace search over lowercase passwords: a serial baseline
(src/serial_password_hash.c) and three parallel variants
(src/openmp/openmp_password_hash.c, src/mpi/mpi_password_hash.c,
src/cuda/cuda_password_hash.cu). The fingerprint function (MD5) is an external
oracle per the specification, so the search is embedded with the fingerprint as an
abstract parameter with decidable equality.
-/

/-- The alphabet string literal CHARSET, identical in all four source files. -/
def CHARSET : List Char := "abcdefghijklmnopqrstuvwxyz".toList

/-- CHARSET_SIZE from the source files. -/
def CHARSET_SIZE : Nat := 26

/-- MAX_PASSWORD_LENGTH from the source files. -/
def MAX_PASSWORD_LENGTH : Nat := 10

/-- Modulus of the C type unsigned long long, the 64-bit index integer type of the
source. -/
def UINT64_MOD : Nat := 2 ^ 64

/-- Reading the CHARSET string literal at a digit position. Every access in the
source indexes with a value already reduced mod CHARSET_SIZE, so the getD default
is never reached on the source's accesses. -/
def charAt (d : Nat) : Char := CHARSET.getD d 'a'

/-- number_to_password from src/serial_password_hash.c lines 19-25, identical in the
openmp and mpi sources and named index_to_password in the cuda kernel: for i from
length-1 down to 0 the loop stores CHARSET of num mod CHARSET_SIZE at position i and
divides num by CHARSET_SIZE, so the last character holds the least significant
digit. The C terminator write is not part of the list model. -/
def number_to_password : Nat → Nat → List Char
  | _, 0 => []
  | num, l + 1 =>
    number_to_password (num / CHARSET_SIZE) l ++ [charAt (num % CHARSET_SIZE)]

/-- calculate_combinations from src/serial_password_hash.c lines 28-34, identical in
the openmp and mpi sources and inlined in crack_password_cuda: total starts at 1 and
is multiplied by CHARSET_SIZE once per character position in an unsigned long long,
so each step wraps mod 2 to the 64. -/
def calculate_combinations : Nat → Nat
  | 0 => 1
  | l + 1 => calculate_combinations l * CHARSET_SIZE % UINT64_MOD

/-- Proof-side inverse of number_to_password: reads a candidate back as a base-26
numeral, most significant digit first. -/
def password_to_number (s : List Char) : Nat :=
  s.foldl (fun acc c => acc * CHARSET_SIZE + CHARSET.indexOf c) 0

/-- Whether a string is a candidate of the keyspace for a given length: exactly that
many characters, all drawn from the alphabet. -/
def is_candidate (s : List Char) (length : Nat) : Prop :=
  s.length = length ∧ ∀ c ∈ s, c ∈ CHARSET

/-- Outcome of crack_password_serial: the returned int as a Bool, the attempts
counter at return, and the guess that was printed when found. -/
structure SearchResult where
  found : Bool
  attempts : Nat
  password : Option (List Char)
deriving DecidableEq

/-- The loop of crack_password_serial, src/serial_password_hash.c lines 75-113,
parameterised by the remaining iteration count: each iteration generates the
candidate of index i, increments attempts, fingerprints the candidate and returns
found on a fingerprint match; when the iterations run out the function falls through
to the not-found return. -/
def crack_from {α : Type} [DecidableEq α] (fp : List Char → α) (target_hash : α)
    (password_length : Nat) : Nat → Nat → Nat → SearchResult
  | 0, _, attempts => { found := false, attempts := attempts, password := none }
  | fuel + 1, i, attempts =>
    if fp (number_to_password i password_length) = target_hash then
      { found := true, attempts := attempts + 1,
        password := some (number_to_password i password_length) }
    else
      crack_from fp target_hash password_length fuel (i + 1) (attempts + 1)

/-- crack_password_serial from src/serial_password_hash.c lines 50-126: computes the
target fingerprint from the target password, then scans indices 0 up to
calculate_combinations of the length, with the fingerprint function abstract. -/
def crack_password_serial {α : Type} [DecidableEq α] (fp : List Char → α)
    (target_password : List Char) (password_length : Nat) : SearchResult :=
  crack_from fp (fp target_password) password_length
    (calculate_combinations password_length) 0 0

/-- Index set visited by an MPI rank in mpi_crack, src/mpi/mpi_password_hash.c line
66: the loop for i = rank while i < total stepping by world_size. For rank below
world_size these are exactly the indices below size congruent to rank. -/
def mpi_partition (rank world_size size : Nat) : Finset Nat :=
  (Finset.range size).filter (fun i => i % world_size = rank)

/-- Index set checked by one cuda thread in crack_password_kernel,
src/cuda/cuda_password_hash.cu lines 99-124: thread t starts at t *
passwords_per_thread (start_index is 0 in the only launch) and checks
passwords_per_thread consecutive indices, returning before any index at or past
total_combinations. -/
def cuda_partition (t ppt size : Nat) : Finset Nat :=
  (Finset.range size).filter (fun i => t * ppt ≤ i ∧ i < (t + 1) * ppt)

/-- Shared state of the match-handling path of a parallel search: the found flag,
each worker's position in that path, and the ordered list of workers that have
executed the result-buffer write. Phase 0: before the flag check at the top of the
loop body; phase 1: passed the flag check with a matching candidate, about to run
the result-writing code; phase 2: ran the result-writing code; phase 3: observed the
flag set and stopped. -/
structure SharedState (n : Nat) where
  found : Bool
  phase : Fin n → Nat
  writers : List (Fin n)

/-- Initial shared state: flag clear, every worker at the top of its loop. -/
def shared_init (n : Nat) : SharedState n :=
  { found := false, phase := fun _ => 0, writers := [] }

/-- One step of a worker whose candidate matches, in the openmp match path of
crack_password_parallel, src/openmp/openmp_password_hash.c lines 85-98: the flag
check at the top of the loop body is one shared access, and the write block (found =
1, found_at = i, strcpy into found_password) is a later separate step that runs
unconditionally once the earlier check saw the flag clear. -/
def omp_step {n : Nat} (s : SharedState n) (w : Fin n) : SharedState n :=
  match s.phase w with
  | 0 =>
    if s.found then { s with phase := Function.update s.phase w 3 }
    else { s with phase := Function.update s.phase w 1 }
  | 1 =>
    { found := true, phase := Function.update s.phase w 2,
      writers := s.writers ++ [w] }
  | _ => s

/-- One step of a worker whose candidate matches, in the cuda match path of
crack_password_kernel, src/cuda/cuda_password_hash.cu lines 113-153: the early-exit
flag read, then an atomicCAS of the flag from 0 to 1 where the flag update and the
decision whether this thread writes the result happen in one atomic step; the result
buffer is written only when the CAS returned 0. -/
def cuda_step {n : Nat} (s : SharedState n) (w : Fin n) : SharedState n :=
  match s.phase w with
  | 0 =>
    if s.found then { s with phase := Function.update s.phase w 3 }
    else { s with phase := Function.update s.phase w 1 }
  | 1 =>
    if s.found then { s with phase := Function.update s.phase w 3 }
    else
      { found := true, phase := Function.update s.phase w 2,
        writers := s.writers ++ [w] }
  | _ => s

/-- Run a schedule of worker steps from a state. -/
def run_schedule {n : Nat} (step : SharedState n → Fin n → SharedState n)
    (s : SharedState n) (sched : List (Fin n)) : SharedState n :=
  sched.foldl step s

/-- Rank 0 progress collection of mpi_crack, src/mpi/mpi_password_hash.c lines
85-100: total_progress starts at rank 0's own counter; each worker mailbox is probed
once per round and, when a report is present, its value is added; no per-worker
state survives between rounds. -/
def collect_progress (own : Nat) (reports : List (Option Nat)) : Nat :=
  reports.foldl (fun total r => match r with | some v => total + v | none => total) own

/-- Exit code of main in src/serial_password_hash.c lines 139-156 as a function of
the typed password: 1 when it is longer than MAX_PASSWORD_LENGTH, 1 when some
character is below a or above z, else the search runs and main returns 0. -/
def serial_main_exit (pw : List Char) : Nat :=
  if MAX_PASSWORD_LENGTH < pw.length then 1
  else if pw.any (fun c => decide (c < 'a') || decide ('z' < c)) then 1
  else 0

/-- Exit code of main in src/openmp/openmp_password_hash.c lines 154-170: the same
validation as the serial main. -/
def openmp_main_exit (pw : List Char) : Nat :=
  if MAX_PASSWORD_LENGTH < pw.length then 1
  else if pw.any (fun c => decide (c < 'a') || decide ('z' < c)) then 1
  else 0

/-- Exit code of main in src/cuda/cuda_password_hash.cu lines 385-427: rejects
over-long, empty, and non-lowercase passwords, else runs the search and returns
0. -/
def cuda_main_exit (pw : List Char) : Nat :=
  if MAX_PASSWORD_LENGTH < pw.length then 1
  else if pw.length = 0 then 1
  else if pw.any (fun c => decide (c < 'a') || decide ('z' < c)) then 1
  else 0

/-- Exit code of main in src/mpi/mpi_password_hash.c lines 130-172 as a function of
the password it received: after a successful read the password is broadcast and
mpi_crack runs unconditionally; there is no charset or length validation, and main
returns 0 whatever the string contains. -/
def mpi_main_exit (pw : List Char) : Nat := 0

/-! Helper facts about the alphabet, all by evaluation of the concrete 26-character
list. -/

theorem charset_nodup : CHARSET.Nodup := by decide

theorem charset_length : CHARSET.length = 26 := by decide

theorem charAt_mem : ∀ d < 26, charAt d ∈ CHARSET := by decide

theorem indexOf_charAt : ∀ d < 26, CHARSET.indexOf (charAt d) = d := by decide

theorem charAt_indexOf : ∀ c ∈ CHARSET, charAt (CHARSET.indexOf c) = c := by decide

theorem indexOf_lt_charset : ∀ c ∈ CHARSET, CHARSET.indexOf c < 26 := by decide

/-! Structure of number_to_password. -/

theorem number_to_password_length (num l : Nat) :
    (number_to_password num l).length = l := by
  induction l generalizing num with
  | zero => simp [number_to_password]
  | succ l ih => simp [number_to_password, ih]

theorem number_to_password_mem (num l : Nat) :
    ∀ c ∈ number_to_password num l, c ∈ CHARSET := by
  induction l generalizing num with
  | zero => simp [number_to_password]
  | succ l ih =>
    intro c hc
    simp only [number_to_password, List.mem_append, List.mem_singleton] at hc
    rcases hc with hc | hc
    · exact ih _ _ hc
    · subst hc
      exact charAt_mem _ (Nat.mod_lt _ (by simp [CHARSET_SIZE]))

theorem password_to_number_append (s : List Char) (c : Char) :
    password_to_number (s ++ [c]) =
      password_to_number s * CHARSET_SIZE + CHARSET.indexOf c := by
  simp [password_to_number, List.foldl_append]

theorem password_to_number_ntp (l : Nat) : ∀ num : Nat,
    password_to_number (number_to_password num l) = num % 26 ^ l := by
  induction l with
  | zero => intro num; simp [number_to_password, password_to_number, Nat.mod_one]
  | succ l ih =>
    intro num
    calc password_to_number (number_to_password num (l + 1))
        = password_to_number (number_to_password (num / CHARSET_SIZE) l) * CHARSET_SIZE
            + CHARSET.indexOf (charAt (num % CHARSET_SIZE)) := by
          rw [number_to_password, password_to_number_append]
      _ = num / 26 % 26 ^ l * 26 + num % 26 := by
          rw [ih]
          have h : CHARSET.indexOf (charAt (num % CHARSET_SIZE)) = num % CHARSET_SIZE :=
            indexOf_charAt _ (Nat.mod_lt _ (by simp [CHARSET_SIZE]))
          rw [h]
          simp [CHARSET_SIZE]
      _ = num % 26 ^ (l + 1) := by
          rw [pow_succ, Nat.mul_comm (26 ^ l) 26, Nat.mod_mul]
          omega

theorem number_to_password_mod (l : Nat) : ∀ num : Nat,
    number_to_password num l = number_to_password (num % 26 ^ l) l := by
  induction l with
  | zero => intro num; simp [number_to_password]
  | succ l ih =>
    intro num
    have hdvd : (26 : Nat) ∣ 26 ^ (l + 1) := dvd_pow_self 26 (Nat.succ_ne_zero l)
    have hdiv : num % 26 ^ (l + 1) / 26 = num / 26 % 26 ^ l := by
      rw [pow_succ, Nat.mul_comm]
      exact Nat.mod_mul_right_div_self num 26 (26 ^ l)
    have hmod : num % 26 ^ (l + 1) % 26 = num % 26 := Nat.mod_mod_of_dvd num hdvd
    rw [number_to_password, number_to_password]
    simp only [CHARSET_SIZE, hdiv, hmod]
    rw [← ih (num / 26)]

theorem ntp_password_to_number : ∀ s : List Char, (∀ c ∈ s, c ∈ CHARSET) →
    number_to_password (password_to_number s) s.length = s := by
  intro s
  induction s using List.reverseRecOn with
  | nil => intro _; simp [password_to_number, number_to_password]
  | append_singleton t c ih =>
    intro h
    have hc : c ∈ CHARSET := h c (by simp)
    have ht : ∀ x ∈ t, x ∈ CHARSET := fun x hx => h x (by simp [hx])
    have hidx : CHARSET.indexOf c < 26 := indexOf_lt_charset c hc
    rw [password_to_number_append]
    have hlen : (t ++ [c]).length = t.length + 1 := by simp
    rw [hlen, number_to_password]
    have hdiv : (password_to_number t * CHARSET_SIZE + CHARSET.indexOf c) / CHARSET_SIZE
        = password_to_number t := by
      simp only [CHARSET_SIZE]
      rw [Nat.mul_comm, Nat.mul_add_div (by norm_num)]
      omega
    have hmod : (password_to_number t * CHARSET_SIZE + CHARSET.indexOf c) % CHARSET_SIZE
        = CHARSET.indexOf c := by
      simp only [CHARSET_SIZE]
      rw [Nat.mul_comm, Nat.mul_add_mod]
      exact Nat.mod_eq_of_lt hidx
    rw [hdiv, hmod, ih ht, charAt_indexOf c hc]

theorem password_to_number_lt : ∀ s : List Char, (∀ c ∈ s, c ∈ CHARSET) →
    password_to_number s < 26 ^ s.length := by
  intro s
  induction s using List.reverseRecOn with
  | nil => intro _; simp [password_to_number]
  | append_singleton t c ih =>
    intro h
    have hc : c ∈ CHARSET := h c (by simp)
    have ht : ∀ x ∈ t, x ∈ CHARSET := fun x hx => h x (by simp [hx])
    have h1 := ih ht
    have h2 : CHARSET.indexOf c < 26 := indexOf_lt_charset c hc
    rw [password_to_number_append]
    have hlen : (t ++ [c]).length = t.length + 1 := by simp
    rw [hlen, pow_succ]
    simp only [CHARSET_SIZE]
    have h3 : (password_to_number t + 1) * 26 ≤ 26 ^ t.length * 26 :=
      Nat.mul_le_mul_right 26 h1
    have h4 : (password_to_number t + 1) * 26 = password_to_number t * 26 + 26 := by ring
    omega

theorem number_to_password_inj {l i j : Nat} (hi : i < 26 ^ l) (hj : j < 26 ^ l)
    (h : number_to_password i l = number_to_password j l) : i = j := by
  have h2 := congrArg password_to_number h
  rw [password_to_number_ntp, password_to_number_ntp] at h2
  rwa [Nat.mod_eq_of_lt hi, Nat.mod_eq_of_lt hj] at h2

/-! The wrapped size computation. -/

theorem calculate_combinations_mod (l : Nat) :
    calculate_combinations l = 26 ^ l % UINT64_MOD := by
  induction l with
  | zero =>
    rw [calculate_combinations]
    simp only [UINT64_MOD, pow_zero]
    norm_num
  | succ l ih =>
    rw [calculate_combinations, ih]
    simp only [CHARSET_SIZE]
    rw [Nat.mod_mul_mod, pow_succ]

theorem calculate_combinations_exact (l : Nat) (h : l ≤ 13) :
    calculate_combinations l = 26 ^ l := by
  rw [calculate_combinations_mod]
  apply Nat.mod_eq_of_lt
  simp only [UINT64_MOD]
  calc 26 ^ l ≤ 26 ^ 13 := Nat.pow_le_pow_right (by norm_num) h
    _ < 2 ^ 64 := by norm_num

/-! Behaviour of the serial search loop. -/

theorem crack_from_no_match {α : Type} [DecidableEq α] (fp : List Char → α)
    (target : α) (L : Nat) :
    ∀ fuel i attempts,
      (∀ j, j < fuel → fp (number_to_password (i + j) L) ≠ target) →
      crack_from fp target L fuel i attempts =
        { found := false, attempts := attempts + fuel, password := none } := by
  intro fuel
  induction fuel with
  | zero => intro i attempts _; simp [crack_from]
  | succ fuel ih =>
    intro i attempts h
    rw [crack_from]
    have h0 : fp (number_to_password i L) ≠ target := by
      have h1 := h 0 (Nat.succ_pos fuel)
      simpa using h1
    rw [if_neg h0]
    have hrest : ∀ j, j < fuel → fp (number_to_password (i + 1 + j) L) ≠ target := by
      intro j hj
      have h2 := h (j + 1) (by omega)
      have e : i + (j + 1) = i + 1 + j := by omega
      rwa [e] at h2
    rw [ih (i + 1) (attempts + 1) hrest]
    have e2 : attempts + 1 + fuel = attempts + (fuel + 1) := by omega
    rw [e2]

theorem crack_from_first_match {α : Type} [DecidableEq α] (fp : List Char → α)
    (target : α) (L : Nat) :
    ∀ fuel k i attempts, k < fuel →
      fp (number_to_password (i + k) L) = target →
      (∀ j, j < k → fp (number_to_password (i + j) L) ≠ target) →
      crack_from fp target L fuel i attempts =
        { found := true, attempts := attempts + k + 1,
          password := some (number_to_password (i + k) L) } := by
  intro fuel
  induction fuel with
  | zero => intro k i attempts hk; exact absurd hk (Nat.not_lt_zero k)
  | succ fuel ih =>
    intro k i attempts hk hmatch hmin
    rw [crack_from]
    cases k with
    | zero =>
      simp only [Nat.add_zero] at hmatch
      rw [if_pos hmatch]
      simp
    | succ k =>
      have h0 : fp (number_to_password i L) ≠ target := by
        have h1 := hmin 0 (Nat.succ_pos k)
        simpa using h1
      rw [if_neg h0]
      have e : i + (k + 1) = i + 1 + k := by omega
      have hmin2 : ∀ j, j < k → fp (number_to_password (i + 1 + j) L) ≠ target := by
        intro j hj
        have h2 := hmin (j + 1) (by omega)
        have e3 : i + (j + 1) = i + 1 + j := by omega
        rwa [e3] at h2
      rw [ih k (i + 1) (attempts + 1) (by omega) (by rwa [e] at hmatch) hmin2]
      have e2 : attempts + 1 + k + 1 = attempts + (k + 1) + 1 := by omega
      rw [e2, ← e]

/-- C2: for every length between 1 and MAX_PASSWORD_LENGTH, number_to_password is a
bijection from the index range below 26 to the length onto the candidates of that
length: distinct indices give distinct candidates, every produced string is a
candidate of exactly that length, and every such candidate arises from exactly one
index. -/
theorem c2_keyspace_bijection (L : Nat) (h1 : 1 ≤ L) (h2 : L ≤ MAX_PASSWORD_LENGTH) :
    (∀ i j, i < 26 ^ L → j < 26 ^ L →
        number_to_password i L = number_to_password j L → i = j)
  ∧ (∀ i, i < 26 ^ L → is_candidate (number_to_password i L) L)
  ∧ (∀ s : List Char, is_candidate s L →
        ∃! i, i < 26 ^ L ∧ number_to_password i L = s) := by
  refine ⟨fun i j hi hj h => number_to_password_inj hi hj h,
    fun i _ => ⟨number_to_password_length i L, number_to_password_mem i L⟩, ?_⟩
  rintro s ⟨hlen, hmem⟩
  refine ⟨password_to_number s, ⟨?_, ?_⟩, ?_⟩
  · have hb := password_to_number_lt s hmem
    rwa [hlen] at hb
  · have hr := ntp_password_to_number s hmem
    rwa [hlen] at hr
  · rintro j ⟨hj, hjs⟩
    have hb : password_to_number s < 26 ^ L := by
      have hb2 := password_to_number_lt s hmem
      rwa [hlen] at hb2
    apply number_to_password_inj hj hb
    rw [hjs]
    have hr := ntp_password_to_number s hmem
    rw [hlen] at hr
    exact hr.symm

/-- Witness for c2_keyspace_bijection at length 2. -/
theorem c2_keyspace_bijection_witness :
    (1 ≤ 2 ∧ 2 ≤ MAX_PASSWORD_LENGTH)
  ∧ ((∀ i j, i < 26 ^ 2 → j < 26 ^ 2 →
        number_to_password i 2 = number_to_password j 2 → i = j)
    ∧ (∀ i, i < 26 ^ 2 → is_candidate (number_to_password i 2) 2)
    ∧ (∀ s : List Char, is_candidate s 2 →
        ∃! i, i < 26 ^ 2 ∧ number_to_password i 2 = s)) :=
  ⟨⟨by norm_num, by decide⟩, c2_keyspace_bijection 2 (by norm_num) (by decide)⟩

/-- C1: for any fingerprint oracle, whenever some index below the keyspace size for
the requested length has the target's fingerprint, crack_password_serial reports
found and its reported candidate's fingerprint genuinely equals the target's. -/
theorem c1_serial_finds_match {α : Type} [DecidableEq α] (fp : List Char → α)
    (target_password : List Char) (L : Nat) (hL : L ≤ MAX_PASSWORD_LENGTH)
    (hex : ∃ k, k < 26 ^ L ∧ fp (number_to_password k L) = fp target_password) :
    (crack_password_serial fp target_password L).found = true
  ∧ ∃ p, (crack_password_serial fp target_password L).password = some p
      ∧ fp p = fp target_password := by
  have hk0 := Nat.find_spec hex
  obtain ⟨hk0lt, hk0match⟩ := hk0
  have hmin : ∀ j, j < Nat.find hex →
      fp (number_to_password (0 + j) L) ≠ fp target_password := by
    intro j hj
    have hnot := Nat.find_min hex hj
    have hjlt : j < 26 ^ L := lt_trans hj hk0lt
    simp only [Nat.zero_add]
    intro hcontra
    exact hnot ⟨hjlt, hcontra⟩
  have hcc : calculate_combinations L = 26 ^ L :=
    calculate_combinations_exact L (le_trans hL (by decide))
  have hrun := crack_from_first_match fp (fp target_password) L (26 ^ L)
    (Nat.find hex) 0 0 hk0lt (by simpa using hk0match) hmin
  unfold crack_password_serial
  rw [hcc, hrun]
  exact ⟨rfl, number_to_password (0 + Nat.find hex) L, rfl, by simpa using hk0match⟩

/-- Witness for c1_serial_finds_match: the identity fingerprint, target a, length
1. -/
theorem c1_serial_finds_match_witness :
    (1 ≤ MAX_PASSWORD_LENGTH
      ∧ ∃ k, k < 26 ^ 1
        ∧ (fun s : List Char => s) (number_to_password k 1)
            = (fun s : List Char => s) ['a'])
  ∧ ((crack_password_serial (fun s : List Char => s) ['a'] 1).found = true
    ∧ ∃ p, (crack_password_serial (fun s : List Char => s) ['a'] 1).password = some p
        ∧ (fun s : List Char => s) p = (fun s : List Char => s) ['a']) :=
  ⟨⟨by decide, 0, by decide, by decide⟩,
    c1_serial_finds_match (fun s : List Char => s) ['a'] 1 (by decide)
      ⟨0, by decide, by decide⟩⟩

/-- C3: for any fingerprint oracle, when no index below the keyspace size matches
the target's fingerprint, crack_password_serial returns the not-found status and its
attempt counter equals the full keyspace size 26 to the length. -/
theorem c3_serial_exhaustion {α : Type} [DecidableEq α] (fp : List Char → α)
    (target_password : List Char) (L : Nat) (hL : L ≤ MAX_PASSWORD_LENGTH)
    (hno : ∀ k, k < 26 ^ L → fp (number_to_password k L) ≠ fp target_password) :
    (crack_password_serial fp target_password L).found = false
  ∧ (crack_password_serial fp target_password L).attempts = 26 ^ L := by
  have hcc : calculate_combinations L = 26 ^ L :=
    calculate_combinations_exact L (le_trans hL (by decide))
  have hrun := crack_from_no_match fp (fp target_password) L (26 ^ L) 0 0 ?_
  · unfold crack_password_serial
    rw [hcc, hrun]
    exact ⟨rfl, Nat.zero_add _⟩
  · intro j hj
    have := hno j hj
    simpa using this

/-- Witness for c3_serial_exhaustion: the identity fingerprint, a length-2 target
searched at length 1, which no length-1 candidate can equal. -/
theorem c3_serial_exhaustion_witness :
    (1 ≤ MAX_PASSWORD_LENGTH
      ∧ ∀ k, k < 26 ^ 1 →
          (fun s : List Char => s) (number_to_password k 1)
            ≠ (fun s : List Char => s) ['a', 'a'])
  ∧ ((crack_password_serial (fun s : List Char => s) ['a', 'a'] 1).found = false
    ∧ (crack_password_serial (fun s : List Char => s) ['a', 'a'] 1).attempts
        = 26 ^ 1) :=
  ⟨⟨by decide, by decide⟩,
    c3_serial_exhaustion (fun s : List Char => s) ['a', 'a'] 1 (by decide) (by decide)⟩

/-- C10: the serial loop visits indices in increasing order from 0, so when k is the
least matching index, crack_password_serial reports the candidate of index k and
exactly k plus 1 attempts. -/
theorem c10_serial_lowest_index {α : Type} [DecidableEq α] (fp : List Char → α)
    (target_password : List Char) (L k : Nat) (hL : L ≤ MAX_PASSWORD_LENGTH)
    (hk : k < 26 ^ L)
    (hmatch : fp (number_to_password k L) = fp target_password)
    (hmin : ∀ j, j < k → fp (number_to_password j L) ≠ fp target_password) :
    (crack_password_serial fp target_password L).found = true
  ∧ (crack_password_serial fp target_password L).password
      = some (number_to_password k L)
  ∧ (crack_password_serial fp target_password L).attempts = k + 1 := by
  have hcc : calculate_combinations L = 26 ^ L :=
    calculate_combinations_exact L (le_trans hL (by decide))
  have hrun := crack_from_first_match fp (fp target_password) L (26 ^ L) k 0 0 hk
    (by simpa using hmatch) (by intro j hj; simpa using hmin j hj)
  unfold crack_password_serial
  rw [hcc, hrun]
  refine ⟨rfl, ?_, ?_⟩
  · simp
  · simp

/-- Witness for c10_serial_lowest_index: the identity fingerprint, target b, length
1, least matching index 1. -/
theorem c10_serial_lowest_index_witness :
    (1 ≤ MAX_PASSWORD_LENGTH ∧ 1 < 26 ^ 1
      ∧ (fun s : List Char => s) (number_to_password 1 1)
          = (fun s : List Char => s) ['b']
      ∧ ∀ j, j < 1 →
          (fun s : List Char => s) (number_to_password j 1)
            ≠ (fun s : List Char => s) ['b'])
  ∧ ((crack_password_serial (fun s : List Char => s) ['b'] 1).found = true
    ∧ (crack_password_serial (fun s : List Char => s) ['b'] 1).password
        = some (number_to_password 1 1)
    ∧ (crack_password_serial (fun s : List Char => s) ['b'] 1).attempts = 1 + 1) :=
  ⟨⟨by decide, by decide, by decide, by decide⟩,
    c10_serial_lowest_index (fun s : List Char => s) ['b'] 1 1 (by decide) (by decide)
      (by decide) (by decide)⟩

/-- C7 counterexample: at length 14 the exact power of 26 does not fit in 64 bits,
yet calculate_combinations performs no overflow check and silently returns the
wrapped value instead of failing. -/
theorem c7_counterexample :
    2 ^ 64 < 26 ^ 14
  ∧ calculate_combinations 14 = 26 ^ 14 % 2 ^ 64
  ∧ calculate_combinations 14 ≠ 26 ^ 14 := by
  refine ⟨by norm_num, ?_, ?_⟩
  · rw [calculate_combinations_mod]
    simp only [UINT64_MOD]
  · rw [calculate_combinations_mod]
    simp only [UINT64_MOD]
    norm_num

/-- C7 amended: calculate_combinations always returns the exact power of 26 reduced
mod 2 to the 64; it equals the exact mathematical value precisely when that value
fits in the 64-bit index type, and otherwise it silently wraps, with no overflow
check and no failure. -/
theorem c7_amended_size_wraps :
    (∀ l, calculate_combinations l = 26 ^ l % 2 ^ 64)
  ∧ (∀ l, 26 ^ l < 2 ^ 64 → calculate_combinations l = 26 ^ l) := by
  constructor
  · intro l
    rw [calculate_combinations_mod]
    simp only [UINT64_MOD]
  · intro l h
    rw [calculate_combinations_mod]
    simp only [UINT64_MOD]
    exact Nat.mod_eq_of_lt h

/-- Witness for c7_amended_size_wraps at length 3. -/
theorem c7_amended_size_wraps_witness :
    26 ^ 3 < 2 ^ 64 ∧ calculate_combinations 3 = 26 ^ 3 :=
  ⟨by norm_num, c7_amended_size_wraps.2 3 (by norm_num)⟩

/-- C8 counterexample: index 26 is outside the length-1 keyspace, yet
number_to_password returns the same valid candidate as index 0 instead of
failing. -/
theorem c8_counterexample :
    26 ^ 1 ≤ 26
  ∧ number_to_password 26 1 = number_to_password 0 1
  ∧ number_to_password 26 1 = ['a'] := by decide

/-- C8 amended: number_to_password has no bounds check and cannot fail; on any
index, in range or not, it returns the valid candidate of the index reduced mod the
keyspace size for that length. -/
theorem c8_amended_decode_wraps (num l : Nat) :
    number_to_password num l = number_to_password (num % 26 ^ l) l
  ∧ (number_to_password num l).length = l
  ∧ ∀ c ∈ number_to_password num l, c ∈ CHARSET :=
  ⟨number_to_password_mod l num, number_to_password_length num l,
    number_to_password_mem num l⟩

/-- Witness for c8_amended_decode_wraps at index 30, length 1. -/
theorem c8_amended_decode_wraps_witness :
    number_to_password 30 1 = number_to_password (30 % 26 ^ 1) 1
  ∧ (number_to_password 30 1).length = 1
  ∧ ∀ c ∈ number_to_password 30 1, c ∈ CHARSET :=
  c8_amended_decode_wraps 30 1

/-- Faithfulness of mpi_partition to the source loop: for a rank below world_size,
membership is exactly being a loop value rank plus a multiple of world_size that is
below the total. -/
theorem mpi_partition_mem (rank world_size size : Nat) (h : rank < world_size)
    (i : Nat) :
    i ∈ mpi_partition rank world_size size ↔
      i < size ∧ ∃ t, i = rank + t * world_size := by
  simp only [mpi_partition, Finset.mem_filter, Finset.mem_range]
  constructor
  · rintro ⟨hi, hmod⟩
    refine ⟨hi, i / world_size, ?_⟩
    have hdm := Nat.div_add_mod i world_size
    have e : world_size * (i / world_size) = i / world_size * world_size := by ring
    omega
  · rintro ⟨hi, t, rfl⟩
    refine ⟨hi, ?_⟩
    rw [Nat.add_mul_mod_self_right]
    exact Nat.mod_eq_of_lt h

/-- Faithfulness of cuda_partition to the kernel loop: membership is exactly being a
value my_start plus an offset below passwords_per_thread that is below the total. -/
theorem cuda_partition_mem (t ppt size : Nat) (i : Nat) :
    i ∈ cuda_partition t ppt size ↔
      i < size ∧ ∃ j, j < ppt ∧ i = t * ppt + j := by
  simp only [cuda_partition, Finset.mem_filter, Finset.mem_range]
  constructor
  · rintro ⟨hi, hlo, hhi⟩
    refine ⟨hi, i - t * ppt, ?_, ?_⟩ <;>
      · have e : (t + 1) * ppt = t * ppt + ppt := by ring
        omega
  · rintro ⟨hi, j, hj, rfl⟩
    refine ⟨hi, by omega, ?_⟩
    have e : (t + 1) * ppt = t * ppt + ppt := by ring
    omega

/-- C4: both partitioning disciplines are exact disjoint covers of the index range:
the strided sets of the world_size MPI ranks unite to the whole range with no index
in two of them, and likewise the contiguous blocks of the cuda threads whenever the
launch provides enough threads to cover the keyspace, as the auto-calculated launch
does. -/
theorem c4_partitions_cover (size W T ppt : Nat) (hW : 1 ≤ W) (hppt : 1 ≤ ppt)
    (hcov : size ≤ T * ppt) :
    ((Finset.range W).biUnion (fun w => mpi_partition w W size) = Finset.range size)
  ∧ (∀ w1 ∈ Finset.range W, ∀ w2 ∈ Finset.range W, w1 ≠ w2 →
      mpi_partition w1 W size ∩ mpi_partition w2 W size = ∅)
  ∧ ((Finset.range T).biUnion (fun t => cuda_partition t ppt size)
      = Finset.range size)
  ∧ (∀ t1 t2 : Nat, t1 ≠ t2 →
      cuda_partition t1 ppt size ∩ cuda_partition t2 ppt size = ∅) := by
  refine ⟨?_, ?_, ?_, ?_⟩
  · ext i
    simp only [Finset.mem_biUnion, Finset.mem_range, mpi_partition, Finset.mem_filter]
    constructor
    · rintro ⟨w, _, hi, _⟩
      exact hi
    · intro hi
      exact ⟨i % W, Nat.mod_lt i hW, hi, rfl⟩
  · intro w1 _ w2 _ hne
    rw [Finset.eq_empty_iff_forall_not_mem]
    intro i hi
    rw [Finset.mem_inter] at hi
    obtain ⟨hm1, hm2⟩ := hi
    simp only [mpi_partition, Finset.mem_filter, Finset.mem_range] at hm1 hm2
    exact hne (by omega)
  · ext i
    simp only [Finset.mem_biUnion, Finset.mem_range, cuda_partition, Finset.mem_filter]
    constructor
    · rintro ⟨t, _, hi, _⟩
      exact hi
    · intro hi
      refine ⟨i / ppt, (Nat.div_lt_iff_lt_mul hppt).mpr (lt_of_lt_of_le hi hcov),
        hi, Nat.div_mul_le_self i ppt, ?_⟩
      have h1 := Nat.div_add_mod i ppt
      have h2 := Nat.mod_lt i hppt
      have e : (i / ppt + 1) * ppt = i / ppt * ppt + ppt := by ring
      have e2 : ppt * (i / ppt) = i / ppt * ppt := by ring
      omega
  · intro t1 t2 hne
    rw [Finset.eq_empty_iff_forall_not_mem]
    intro i hi
    rw [Finset.mem_inter] at hi
    obtain ⟨hm1, hm2⟩ := hi
    simp only [cuda_partition, Finset.mem_filter, Finset.mem_range] at hm1 hm2
    have e1 : i / ppt = t1 := Nat.div_eq_of_lt_le hm1.2.1 hm1.2.2
    have e2 : i / ppt = t2 := Nat.div_eq_of_lt_le hm2.2.1 hm2.2.2
    exact hne (e1 ▸ e2)

/-- Witness for c4_partitions_cover: size 5, two MPI ranks, three cuda threads of
two indices each. -/
theorem c4_partitions_cover_witness :
    (1 ≤ 2 ∧ 1 ≤ 2 ∧ 5 ≤ 3 * 2)
  ∧ (((Finset.range 2).biUnion (fun w => mpi_partition w 2 5) = Finset.range 5)
    ∧ (∀ w1 ∈ Finset.range 2, ∀ w2 ∈ Finset.range 2, w1 ≠ w2 →
        mpi_partition w1 2 5 ∩ mpi_partition w2 2 5 = ∅)
    ∧ ((Finset.range 3).biUnion (fun t => cuda_partition t 2 5) = Finset.range 5)
    ∧ (∀ t1 t2 : Nat, t1 ≠ t2 →
        cuda_partition t1 2 5 ∩ cuda_partition t2 2 5 = ∅)) :=
  ⟨⟨by norm_num, by norm_num, by norm_num⟩,
    c4_partitions_cover 5 2 3 2 (by norm_num) (by norm_num) (by norm_num)⟩

/-- One cuda step preserves the writer discipline: while the flag is clear nobody
has written, and never more than one worker has written. -/
theorem cuda_step_inv {n : Nat} (s : SharedState n) (w : Fin n)
    (h1 : s.found = false → s.writers = []) (h2 : s.writers.length ≤ 1) :
    ((cuda_step s w).found = false → (cuda_step s w).writers = [])
  ∧ (cuda_step s w).writers.length ≤ 1 := by
  unfold cuda_step
  split
  · split_ifs with hf
    · exact ⟨h1, h2⟩
    · exact ⟨h1, h2⟩
  · split_ifs with hf
    · exact ⟨h1, h2⟩
    · have hw : s.writers = [] := h1 (by
        cases hfv : s.found
        · rfl
        · exact absurd (hfv ▸ rfl) hf)
      constructor
      · intro hcontra
        simp at hcontra
      · simp [hw]
  · exact ⟨h1, h2⟩

/-- Running any cuda schedule from a state satisfying the writer discipline keeps at
most one writer. -/
theorem cuda_run_writers_le_one {n : Nat} :
    ∀ (sched : List (Fin n)) (s : SharedState n),
      (s.found = false → s.writers = []) → s.writers.length ≤ 1 →
      (run_schedule cuda_step s sched).writers.length ≤ 1 := by
  intro sched
  induction sched with
  | nil => intro s _ h2; exact h2
  | cons w sched ih =>
    intro s h1 h2
    have hstep := cuda_step_inv s w h1 h2
    exact ih (cuda_step s w) hstep.1 hstep.2

/-- C5 evaluation: the cuda compare-and-exchange admits at most one result-buffer
writer on every schedule of every worker count, but in the openmp match path the
four-step interleaving of two simultaneously matching threads, both passing the flag
check before either writes, makes both threads write the result buffer. -/
theorem c5_single_writer_cas_vs_openmp :
    (run_schedule omp_step (shared_init 2) [0, 1, 0, 1]).writers = [0, 1]
  ∧ ∀ (n : Nat) (sched : List (Fin n)),
      (run_schedule cuda_step (shared_init n) sched).writers.length ≤ 1 := by
  constructor
  · decide
  · intro n sched
    exact cuda_run_writers_le_one sched (shared_init n) (fun _ => rfl) (by simp [shared_init])

/-- C6 counterexample: two successive collection rounds of the rank-0 aggregation;
in the first, rank 0 has counted 50000 and both workers' reports of 50000 arrive; in
the second, rank 0 has counted 100000 and both reports are missing and so contribute
zero, dropping the aggregated figure from 150000 to 100000. -/
theorem c6_counterexample :
    collect_progress 100000 [none, none]
      < collect_progress 50000 [some 50000, some 50000] := by decide

/-- C6 amended: each round's aggregated figure is recomputed from scratch: it equals
rank 0's own counter plus the sum of exactly the reports received that round, so no
report is added twice within a round, but a worker whose report is missing
contributes zero rather than its previously known count, and the figure need not be
monotone across rounds. -/
theorem c6_amended_progress_recomputed (own : Nat) (reports : List (Option Nat)) :
    collect_progress own reports = own + (reports.filterMap id).sum := by
  induction reports generalizing own with
  | nil => simp [collect_progress]
  | cons r rest ih =>
    cases r with
    | none =>
      have hc : collect_progress own (none :: rest) = collect_progress own rest := rfl
      rw [hc, ih]
      simp [List.filterMap_cons]
    | some v =>
      have hc : collect_progress own (some v :: rest)
          = collect_progress (own + v) rest := rfl
      rw [hc, ih]
      simp [List.filterMap_cons]
      omega

/-- The charset scan of the three validating mains as a proposition. -/
theorem any_out_of_range_iff (pw : List Char) :
    pw.any (fun c => decide (c < 'a') || decide ('z' < c)) = true ↔
      ∃ c ∈ pw, c < 'a' ∨ 'z' < c := by
  simp [List.any_eq_true]

/-- C9 counterexample: the capital letter A is outside the alphabet and the serial
entry point rejects it with exit code 1, but the MPI entry point performs no
validation and completes with exit code 0. -/
theorem c9_counterexample :
    ('A' < 'a') ∧ serial_main_exit ['A'] = 1 ∧ mpi_main_exit ['A'] = 0 := by decide

/-- C9 amended: the serial, openmp and cuda entry points exit with code 1, without
searching, exactly on a target longer than MAX_PASSWORD_LENGTH or containing a
character outside a-z (the cuda one also on an empty target), but the MPI entry
point performs no such validation and proceeds to the search with exit code 0 for
every target string. -/
theorem c9_amended_validation (pw : List Char) :
    (serial_main_exit pw = 1 ↔
      MAX_PASSWORD_LENGTH < pw.length ∨ ∃ c ∈ pw, c < 'a' ∨ 'z' < c)
  ∧ (openmp_main_exit pw = 1 ↔
      MAX_PASSWORD_LENGTH < pw.length ∨ ∃ c ∈ pw, c < 'a' ∨ 'z' < c)
  ∧ (cuda_main_exit pw = 1 ↔
      MAX_PASSWORD_LENGTH < pw.length ∨ pw.length = 0 ∨ ∃ c ∈ pw, c < 'a' ∨ 'z' < c)
  ∧ mpi_main_exit pw = 0 := by
  refine ⟨?_, ?_, ?_, rfl⟩
  · unfold serial_main_exit
    split_ifs with hlen hany
    · simp [hlen]
    · simp only [any_out_of_range_iff] at hany
      simp [hany]
    · simp only [any_out_of_range_iff] at hany
      simp [hlen, hany]
  · unfold openmp_main_exit
    split_ifs with hlen hany
    · simp [hlen]
    · simp only [any_out_of_range_iff] at hany
      simp [hany]
    · simp only [any_out_of_range_iff] at hany
      simp [hlen, hany]
  · unfold cuda_main_exit
    split_ifs with hlen hnil hany
    · simp [hlen]
    · simp [hnil]
    · simp only [any_out_of_range_iff] at hany
      simp [hany]
    · simp only [any_out_of_range_iff] at hany
      simp [hlen, hnil, hany]
